import Mathlib

/-!
Verification of the packed secret sharing core of the repository
(`src/sharing.rs`, `pss/src/math/mod.rs`, `pss/src/circuit.rs`,
`src/math/galois/mod.rs`).

The field `GF(2^W)` is implemented in the source through bindings to an external
C log-table library; its arithmetic is therefore modelled here by an arbitrary
`Field F` together with an abstract integer-to-field conversion `gfrom : Nat → F`
standing for `GF::from`, as described by the specification (addition is the
field addition, multiplication and division the field operations, `ZERO = 0`,
`ONE = 1`).  All list/matrix level code is translated directly from the source.
-/

namespace PSSV

/-- Row-major matrix of field elements modelling `ndarray::Array2<GF<W>>`:
a shape `(rows, cols)` plus the row-major entries. -/
structure Mat (F : Type) where
  rows : Nat
  cols : Nat
  entries : List (List F)
deriving DecidableEq

/-- Well-formedness of a matrix: the entries agree with the declared shape. -/
def Mat.WF {F : Type} (m : Mat F) : Prop :=
  m.entries.length = m.rows ∧ ∀ r ∈ m.entries, r.length = m.cols

instance {F : Type} [DecidableEq F] (m : Mat F) : Decidable m.WF := by
  unfold Mat.WF; infer_instance

variable {F : Type} [Field F] [DecidableEq F]

/-- Inner product of a matrix row with a vector.  `ndarray`'s dot reduces the
products in some associative order; field addition is commutative and
associative, so the plain left-to-right list sum models it. -/
def dotRow (row v : List F) : F :=
  (List.zipWith (fun a b => a * b) row v).sum

/-- Matrix-vector product `m.dot(&v)` of `ndarray`; `none` models the shape
mismatch panic when the vector length differs from the number of columns. -/
def Mat.dotv (m : Mat F) (v : List F) : Option (List F) :=
  if v.length = m.cols then some (m.entries.map (fun r => dotRow r v)) else none

/-- First `k` rows of a matrix, modelling `coeffs.slice(s![..k, ..])`
(`pss/src/math` matrices are only ever sliced with `k` at most `rows`). -/
def Mat.takeRows (m : Mat F) (k : Nat) : Mat F :=
  ⟨k, m.cols, m.entries.take k⟩

/-- The denominator vector entry of `lagrange_coeffs`
(`pss/src/math/mod.rs` lines 30-39): for an element `x` of `cpos`,
`denom = prod over y in cpos of (if x = y then 1 else x - y)`. -/
def lagDenom (cpos : List F) (x : F) : F :=
  (cpos.map (fun y => if x = y then 1 else x - y)).prod

/-- One row of the Lagrange coefficient matrix for target point `v`
(`pss/src/math/mod.rs` lines 42-67).  When `v` occurs in `cpos` the row is a
unit vector at its index (`position_any` is deterministic under the nodup
precondition asserted by the function); otherwise each entry is
`numerator / ((v - x) * denom x)` with `numerator = prod (v - y)`. -/
def lagRow (cpos : List F) (v : F) : List F :=
  if v ∈ cpos then
    (List.range cpos.length).map (fun j => if j = cpos.indexOf v then (1 : F) else 0)
  else
    cpos.map (fun x => ((cpos.map (fun y => v - y)).prod) / ((v - x) * lagDenom cpos x))

/-- `lagrange_coeffs(cpos, npos)` (`pss/src/math/mod.rs` lines 15-70): matrix
with `npos.len()` rows and `cpos.len()` columns whose row `i` interpolates from
evaluations at `cpos` to the evaluation at `npos[i]`. -/
def lagrange_coeffs (cpos npos : List F) : Mat F :=
  ⟨npos.length, cpos.length, npos.map (lagRow cpos)⟩

/-- Column `i` of the Reed-Solomon generator (`pss/src/math/mod.rs` lines
108-124): column `0` is `[gfrom 1, …, gfrom code_len]` and column `i+1` is the
pointwise product of column `0` with column `i`. -/
def rsCol (gfrom : Nat → F) (code_len : Nat) : Nat → List F
  | 0 => (List.range code_len).map (fun k => gfrom (k + 1))
  | i + 1 =>
    List.zipWith (fun a b => a * b)
      ((List.range code_len).map (fun k => gfrom (k + 1))) (rsCol gfrom code_len i)

/-- `rs_gen_mat(mssg_len, code_len)` (`pss/src/math/mod.rs` lines 108-124).
The loop bound `mssg_len - 1` is an unsigned subtraction, so `mssg_len = 0`
aborts (`none`); otherwise the matrix of the `mssg_len` generated columns is
returned in row-major form, shape `(code_len, mssg_len)`. -/
def rs_gen_mat (gfrom : Nat → F) (mssg_len code_len : Nat) : Option (Mat F) :=
  if mssg_len = 0 then none
  else
    some ⟨code_len, mssg_len,
      (List.range code_len).map (fun k =>
        (List.range mssg_len).map (fun i => (rsCol gfrom code_len i).getD k 0))⟩

/-- The protocol error enumeration.  Modelled from the spec: the definition of
`ProtoErrorKind` is not under `src/`; only the variants used at the call sites
in `src/sharing.rs` are modelled (`Other` carrying a message string, used by
`recon` for the input length check, and `MaliciousBehavior`), matching the
spec's error taxonomy rows `InputLength` and `MaliciousBehavior`. -/
inductive ProtoErrorKind where
  | Other : String → ProtoErrorKind
  | MaliciousBehavior : ProtoErrorKind
deriving DecidableEq

/-- The `PackedSharing` struct (`src/sharing.rs` lines 10-17). -/
structure PackedSharing (F : Type) where
  n : Nat
  np : Nat
  l : Nat
  share_coeffs : Mat F
  recon_coeffs : Mat F
  rand_coeffs : Mat F
deriving DecidableEq

/-- `PackedSharing::share_pos(n)` (`src/sharing.rs` lines 24-26):
`[GF::from 0, …, GF::from (n-1)]`. -/
def share_pos (gfrom : Nat → F) (n : Nat) : List F :=
  (List.range n).map gfrom

/-- `PackedSharing::default_pos(n, l)` (`src/sharing.rs` lines 20-22):
`[GF::from n, …, GF::from (n+l-1)]`. -/
def default_pos (gfrom : Nat → F) (n l : Nat) : List F :=
  (List.range l).map (fun i => gfrom (n + i))

/-- `PackedSharing::new(d, n, pos)` (`src/sharing.rs` lines 86-123); its
`debug_assert` preconditions (`np ≤ n`, elements of `pos` at least `n`) become
hypotheses of the theorems below. -/
def PackedSharing.new (gfrom : Nat → F) (d n : Nat) (pos : List F) : PackedSharing F :=
  let sh_pos := share_pos gfrom n
  let np := d + 1
  let l := pos.length
  let all_pos := pos ++ sh_pos
  { n := n
    np := np
    l := l
    share_coeffs := lagrange_coeffs (all_pos.take np) (all_pos.drop np)
    recon_coeffs := lagrange_coeffs (all_pos.drop (l + n - np)) (all_pos.take (l + n - np))
    rand_coeffs := lagrange_coeffs (sh_pos.take np) (sh_pos.drop np) }

/-- `PackedSharing::compute_share_coeffs(d, n, pos)` (`src/sharing.rs`
lines 36-41). -/
def compute_share_coeffs (gfrom : Nat → F) (d n : Nat) (pos : List F) : Mat F :=
  let np := d + 1
  let sh_pos := share_pos gfrom n
  let all_pos := pos ++ sh_pos
  lagrange_coeffs (all_pos.take np) (all_pos.drop np)

/-- `PackedSharing::compute_recon_coeffs(d, n, pos)` (`src/sharing.rs`
lines 65-75).  Note the second argument of `lagrange_coeffs` is
`&all_pos[..l]`, the first `l` positions only. -/
def compute_recon_coeffs (gfrom : Nat → F) (d n : Nat) (pos : List F) : Mat F :=
  let sh_pos := share_pos gfrom n
  let l := pos.length
  let np := d + 1
  let all_pos := pos ++ sh_pos
  lagrange_coeffs (all_pos.drop (l + n - np)) (all_pos.take l)

/-- `PackedSharing::share_using_coeffs(secrets, coeffs, l, rng)`
(`src/sharing.rs` lines 43-63, reading the transcribed `share`/`shares`
variable pair as the single vector the surrounding code uses).  The RNG is a
stream `rng : Nat → F` of the successive `GF::rand` draws: the first
`np - l` draws seed the vector of shares, and the `from_fn` filler draws (used
only when `secrets` is shorter than `l`) follow them.  `none` models the
`ndarray` dot-product shape panic. -/
def share_using_coeffs (secrets : List F) (coeffs : Mat F) (l : Nat) (rng : Nat → F) :
    Option (List F) :=
  let np := coeffs.cols
  let shares0 := (List.range (np - l)).map rng
  let points :=
    (secrets ++ (List.range l).map (fun i => rng (np - l + i))).take l ++ shares0
  (coeffs.dotv points).map (fun tail => shares0 ++ tail)

/-- `PackedSharing::share(secrets, rng)` (`src/sharing.rs` lines 125-132). -/
def PackedSharing.share (ps : PackedSharing F) (secrets : List F) (rng : Nat → F) :
    Option (List F) :=
  share_using_coeffs secrets ps.share_coeffs ps.l rng

/-- `PackedSharing::recon_using_coeffs(shares, coeffs)` (`src/sharing.rs`
lines 77-84). -/
def recon_using_coeffs (shares : List F) (coeffs : Mat F) : Option (List F) :=
  let np := coeffs.cols
  let n := shares.length
  coeffs.dotv (shares.drop (n - np))

/-- `PackedSharing::semihon_recon(shares)` (`src/sharing.rs` lines 138-145):
the first `l` rows of `recon_coeffs` applied to the last `np` shares. -/
def PackedSharing.semihon_recon (ps : PackedSharing F) (shares : List F) : Option (List F) :=
  (ps.recon_coeffs.takeRows ps.l).dotv (shares.drop (ps.n - ps.np))

/-- The consistency loop of `recon` (`src/sharing.rs` lines 157-161):
walk `recon_vals[l..]` with index `i` comparing against `shares[i]`;
`none` models an out-of-bounds `shares[i]` panic, `some false` the first
mismatch (mapped to `MaliciousBehavior` by `recon`), `some true` success. -/
def reconCheck (shares : List F) : List F → Nat → Option Bool
  | [], _ => some true
  | v :: rest, i =>
    match shares[i]? with
    | none => none
    | some s => if v ≠ s then some false else reconCheck shares rest (i + 1)

/-- `PackedSharing::recon(shares)` (`src/sharing.rs` lines 147-163): input
length check first (returning the `Other("")` error the source constructs
there), then `recon_vals = recon_coeffs ⬝ shares[n-np..]`, then the
consistency loop; on success the first `l` reconstructed values. -/
def PackedSharing.recon (ps : PackedSharing F) (shares : List F) :
    Option (Except ProtoErrorKind (List F)) :=
  if shares.length ≠ ps.n then some (Except.error (ProtoErrorKind.Other "")) else
    (ps.recon_coeffs.dotv (shares.drop (ps.n - ps.np))).bind fun vals =>
      (reconCheck shares (vals.drop ps.l) 0).map fun ok =>
        if ok then Except.ok (vals.take ps.l)
        else Except.error ProtoErrorKind.MaliciousBehavior

/-! ## Circuit (`pss/src/circuit.rs`) -/

/-- A boolean gate (`pss/src/circuit.rs` lines 8-19): XOR and AND carry two
input wires and one output wire, INV one input and one output. -/
inductive Gate where
  | Xor : Nat → Nat → Nat → Gate
  | And : Nat → Nat → Nat → Gate
  | Inv : Nat → Nat → Gate
deriving DecidableEq

/-- The `Circuit` struct (`pss/src/circuit.rs` lines 21-27). -/
structure Circuit where
  gates : List Gate
  inputs : List (List Nat)
  outputs : List (List Nat)
  num_wires : Nat
deriving DecidableEq

/-- The input wire-group scan of `from_bristol_fashion`
(`pss/src/circuit.rs` lines 97-103): running state starts at `0` and each
length `v` yields the range of the next `v` wire IDs. -/
def inputScan : Nat → List Nat → List (List Nat)
  | _, [] => []
  | state, v :: rest => List.range' state v :: inputScan (state + v) rest

/-- The output wire-group scan of `from_bristol_fashion`
(`pss/src/circuit.rs` lines 105-114): the declared lengths are iterated in
reverse, the running state starts at `num_wires` and is decremented by each
length `v` before emitting the range `state-v .. state`.  The wire-index
subtraction is on `u32`; the theorems below assume the well-formed-file
invariant `sum of lengths ≤ num_wires`, under which the truncated `Nat`
subtraction agrees. -/
def outputScan : Nat → List Nat → List (List Nat)
  | _, [] => []
  | state, v :: rest => List.range' (state - v) v :: outputScan (state - v) rest

/-- The `Circuit` built by `from_bristol_fashion` (`pss/src/circuit.rs` lines
78-156) modelled after tokenization: the header numbers (`num_wires`, the
input and output group lengths) and the parsed gate list are taken as given,
and the input/output wire groups are computed exactly as in the source. -/
def from_bristol_fashion (num_wires : Nat) (inp_lens out_lens : List Nat)
    (gates : List Gate) : Circuit :=
  { gates := gates
    inputs := inputScan 0 inp_lens
    outputs := outputScan num_wires out_lens.reverse
    num_wires := num_wires }

/-- One wire-buffer store `wires[i] = b` (`Circuit::eval`); `none` models the
index-out-of-bounds panic. -/
def setWire (ws : List Bool) (i : Nat) (b : Bool) : Option (List Bool) :=
  if i < ws.length then some (ws.set i b) else none

/-- The inner input-writing loop of `Circuit::eval` (`pss/src/circuit.rs`
lines 161-165): the zip of a wire group with the provided bits, written in
order. -/
def writeWires : List Bool → List (Nat × Bool) → Option (List Bool)
  | ws, [] => some ws
  | ws, (w, b) :: rest => (setWire ws w b).bind fun ws2 => writeWires ws2 rest

/-- The outer input-writing loop of `Circuit::eval`: the zip of the declared
input wire groups with the provided input groups. -/
def writeInputs : List Bool → List (List Nat × List Bool) → Option (List Bool)
  | ws, [] => some ws
  | ws, (g, inp) :: rest =>
    (writeWires ws (g.zip inp)).bind fun ws2 => writeInputs ws2 rest

/-- One gate step of `Circuit::eval` (`pss/src/circuit.rs` lines 167-184). -/
def evalGate (ws : List Bool) : Gate → Option (List Bool)
  | Gate.Xor a b out =>
    ws[a]?.bind fun x => ws[b]?.bind fun y => setWire ws out (x != y)
  | Gate.And a b out =>
    ws[a]?.bind fun x => ws[b]?.bind fun y => setWire ws out (x && y)
  | Gate.Inv a out =>
    ws[a]?.bind fun x => setWire ws out (!x)

/-- The gate loop of `Circuit::eval`. -/
def evalGates : List Bool → List Gate → Option (List Bool)
  | ws, [] => some ws
  | ws, g :: rest => (evalGate ws g).bind fun ws2 => evalGates ws2 rest

/-- The output-reading loop of `Circuit::eval` (`pss/src/circuit.rs` lines
186-194). -/
def readGroup (ws : List Bool) (g : List Nat) : Option (List Bool) :=
  g.mapM (fun w => ws[w]?)

/-- `Circuit::eval(inputs)` (`pss/src/circuit.rs` lines 158-197): a wire
buffer of `num_wires` `false`s, the input groups zipped with the provided
groups and written pairwise, the gates evaluated in order, and the output
groups read back. -/
def Circuit.eval (c : Circuit) (inputs : List (List Bool)) :
    Option (List (List Bool)) :=
  (writeInputs (List.replicate c.num_wires false) (c.inputs.zip inputs)).bind fun ws =>
    (evalGates ws c.gates).bind fun ws2 =>
      c.outputs.mapM (readGroup ws2)

/-- The wires named by a gate (inputs and output). -/
def gateWires : Gate → List Nat
  | Gate.Xor a b out => [a, b, out]
  | Gate.And a b out => [a, b, out]
  | Gate.Inv a out => [a, out]

/-- The data-model invariant of a circuit (spec section 3): every wire named
by a gate or an input/output group is below `num_wires`. -/
def Circuit.WF (c : Circuit) : Prop :=
  (∀ g ∈ c.gates, ∀ w ∈ gateWires g, w < c.num_wires) ∧
  (∀ grp ∈ c.inputs, ∀ w ∈ grp, w < c.num_wires) ∧
  (∀ grp ∈ c.outputs, ∀ w ∈ grp, w < c.num_wires)

instance (c : Circuit) : Decidable c.WF := by
  unfold Circuit.WF; infer_instance

/-- Each provided input group truncated to its declared wire group's length,
surplus groups dropped: the shapes `Circuit::eval` actually consumes. -/
def trimInputs (c : Circuit) (inputs : List (List Bool)) : List (List Bool) :=
  (c.inputs.zip inputs).map fun p => p.2.take p.1.length

/-! ## Field element serialization (`src/math/galois/mod.rs`) -/

/-- `GF::NUM_BYTES = ceil(W / 8)` (`src/math/galois/mod.rs` line 21). -/
def NUM_BYTES (W : Nat) : Nat := (W + 7) / 8

/-- `u32::to_le_bytes` of a field element's representative. -/
def toLeBytes4 (x : Nat) : List Nat :=
  [x % 256, x / 256 % 256, x / 256 ^ 2 % 256, x / 256 ^ 3 % 256]

/-- `GF::serialize` (`src/math/galois/mod.rs` lines 302-314): the first
`NUM_BYTES` little-endian bytes of the element. -/
def serializeGF (W : Nat) (a : Nat) : List Nat :=
  (toLeBytes4 a).take (NUM_BYTES W)

/-- `u32::from_le_bytes` of a four-byte buffer. -/
def fromLeBytes4 (bs : List Nat) : Nat :=
  bs.getD 0 0 + bs.getD 1 0 * 256 + bs.getD 2 0 * 256 ^ 2 + bs.getD 3 0 * 256 ^ 3

/-- `GFVisitor::visit_seq` (`src/math/galois/mod.rs` lines 326-347): read
exactly `NUM_BYTES` bytes into a zeroed four-byte buffer (aborting when the
sequence is shorter) and interpret it as a little-endian `u32`. -/
def deserializeGF (W : Nat) (bs : List Nat) : Option Nat :=
  if NUM_BYTES W ≤ bs.length then some (fromLeBytes4 (bs.take (NUM_BYTES W)))
  else none

/-! ## Concrete field for witnesses and counterexamples

The theorems below are generic in the field; witnesses instantiate them over
the prime field with eleven elements, with the canonical integer embedding
playing the role of `GF::from`. -/

instance : Fact (Nat.Prime 11) := ⟨by norm_num⟩

/-- A concrete integer-to-field conversion for witnesses. -/
def castF (k : Nat) : ZMod 11 := (k : ZMod 11)

/-! ## Scan lemmas for the Bristol-Fashion wire-group assignment -/

theorem outputScan_length (ls : List Nat) :
    ∀ st, (outputScan st ls).length = ls.length := by
  induction ls with
  | nil => intro st; rfl
  | cons v rest ih => intro st; simp [outputScan, ih]

theorem outputScan_getElem (ls : List Nat) :
    ∀ st, ls.sum ≤ st → ∀ j, j < ls.length →
      (outputScan st ls)[j]? =
        some (List.range' (st - (ls.take (j + 1)).sum) (ls.getD j 0)) := by
  induction ls with
  | nil => intro st _ j hj; simp at hj
  | cons v rest ih =>
    intro st hsum j hj
    match j with
    | 0 => simp [outputScan]
    | j + 1 =>
      have hrest : rest.sum ≤ st - v := by
        simp [List.sum_cons] at hsum; omega
      have := ih (st - v) hrest j (by simpa using hj)
      simp only [outputScan, List.getElem?_cons_succ, this, List.take_succ_cons,
        List.sum_cons, List.getD_cons_succ]
      congr 2
      omega

/-! ## C6: output group order in `from_bristol_fashion` -/

/-- C6 counterexample: with `num_wires = 5` and declared output lengths
`[1, 2]`, the parser emits `[[3, 4], [2]]` — the declared order would be
`[[2], [3, 4]]` (group 0 of length 1 first), so the emitted sequence is not
in declared order. -/
theorem C6_counterexample :
    (from_bristol_fashion 5 [] [1, 2] []).outputs = [[3, 4], [2]] ∧
    ([[3, 4], [2]] : List (List Nat)) ≠ [[2], [3, 4]] := by
  constructor
  · rfl
  · decide

/-- C6 (amended): for a well-formed declaration (total output length at most
`num_wires`), `from_bristol_fashion` lists the output groups in reverse
declared order: entry `j` of `outputs` is the `j`-th group counted from the
end of the declaration, assigned the contiguous wire range below the groups
already emitted, with entry `0` (the last declared group) ending at
`num_wires`. -/
theorem C6_amended_bristol_outputs_reversed (num_wires : Nat)
    (inp_lens out_lens : List Nat) (gates : List Gate)
    (h : out_lens.sum ≤ num_wires) (j : Nat) (hj : j < out_lens.length) :
    (from_bristol_fashion num_wires inp_lens out_lens gates).outputs.length =
      out_lens.length ∧
    (from_bristol_fashion num_wires inp_lens out_lens gates).outputs[j]? =
      some (List.range'
        (num_wires - (out_lens.reverse.take (j + 1)).sum)
        (out_lens.reverse.getD j 0)) := by
  constructor
  · simp [from_bristol_fashion, outputScan_length]
  · exact outputScan_getElem out_lens.reverse num_wires
      (by rw [List.sum_reverse]; exact h) j (by simpa using hj)

/-- C6 witness input for the amended theorem. -/
theorem C6_amended_witness :
    ([1, 2] : List Nat).sum ≤ 5 ∧ 0 < ([1, 2] : List Nat).length ∧
    (from_bristol_fashion 5 [] [1, 2] []).outputs.length = 2 ∧
    (from_bristol_fashion 5 [] [1, 2] []).outputs[0]? =
      some (List.range' (5 - (([1, 2] : List Nat).reverse.take 1).sum)
        (([1, 2] : List Nat).reverse.getD 0 0)) :=
  ⟨by decide, by decide,
    (C6_amended_bristol_outputs_reversed 5 [] [1, 2] [] (by decide) 0 (by decide)).1,
    (C6_amended_bristol_outputs_reversed 5 [] [1, 2] [] (by decide) 0 (by decide)).2⟩

/-! ## C3: `recon` on a wrong-length share vector -/

/-- C3: for every `PackedSharing` and every share vector whose length is not
`n`, `recon` fails with the structured input-length error the source builds
at the length check (`ProtoErrorKind::Other("")`, the spec taxonomy's
`InputLength` kind), and in particular returns neither `Ok` nor
`MaliciousBehavior`. -/
theorem C3_recon_input_length {F : Type} [Field F] [DecidableEq F]
    (ps : PackedSharing F) (shares : List F) (h : shares.length ≠ ps.n) :
    ps.recon shares = some (Except.error (ProtoErrorKind.Other "")) := by
  simp [PackedSharing.recon, h]

/-- C3 witness at a concrete sharing and an empty share vector. -/
theorem C3_witness :
    ([] : List (ZMod 11)).length ≠ (PackedSharing.new castF 1 2 [(2 : ZMod 11)]).n ∧
    (PackedSharing.new castF 1 2 [(2 : ZMod 11)]).recon [] =
      some (Except.error (ProtoErrorKind.Other "")) :=
  ⟨by decide, C3_recon_input_length _ [] (by decide)⟩

/-! ## C9: `rs_gen_mat` totality and shape -/

/-- C9: `rs_gen_mat` aborts on `mssg_len = 0` (the unsigned loop bound
`mssg_len - 1` underflows) instead of returning a `(code_len, 0)` matrix, and
for every `mssg_len ≥ 1` it is total and returns a well-formed
`(code_len, mssg_len)` matrix. -/
theorem C9_rs_gen_mat_shape {F : Type} [Field F] [DecidableEq F]
    (gfrom : Nat → F) (m c : Nat) (hm : 1 ≤ m) :
    rs_gen_mat gfrom 0 c = none ∧
    ∃ M, rs_gen_mat gfrom m c = some M ∧ M.rows = c ∧ M.cols = m ∧ M.WF := by
  have hm0 : m ≠ 0 := by omega
  refine ⟨by simp [rs_gen_mat],
    ⟨c, m, (List.range c).map (fun k =>
      (List.range m).map (fun i => (rsCol gfrom c i).getD k 0))⟩,
    by simp [rs_gen_mat, hm0], rfl, rfl, ?_, ?_⟩
  · simp
  · intro r hr
    simp only [List.mem_map] at hr
    obtain ⟨k, _, hk⟩ := hr
    simp [← hk]

/-- C9 witness: `mssg_len = 2`, `code_len = 3` over the concrete field. -/
theorem C9_witness :
    (1 : Nat) ≤ 2 ∧ rs_gen_mat castF 0 3 = none ∧
    ∃ M, rs_gen_mat castF 2 3 = some M ∧ M.rows = 3 ∧ M.cols = 2 ∧ M.WF :=
  ⟨by decide, (C9_rs_gen_mat_shape castF 2 3 (by decide)).1,
    (C9_rs_gen_mat_shape castF 2 3 (by decide)).2⟩

/-! ## C8: field element serialization round-trip -/

/-- C8: for every width `1 ≤ W ≤ 29` and every element `a < 2 ^ W`,
serialization produces exactly `NUM_BYTES = ceil(W/8)` little-endian bytes
and deserializing them returns `a`. -/
theorem C8_serialize_roundtrip (W a : Nat) (hW1 : 1 ≤ W) (hW : W ≤ 29)
    (ha : a < 2 ^ W) :
    (serializeGF W a).length = NUM_BYTES W ∧
    deserializeGF W (serializeGF W a) = some a := by
  have hnb : NUM_BYTES W = 1 ∧ W ≤ 8 ∨ NUM_BYTES W = 2 ∧ W ≤ 16 ∨
      NUM_BYTES W = 3 ∧ W ≤ 24 ∨ NUM_BYTES W = 4 ∧ W ≤ 32 := by
    unfold NUM_BYTES; omega
  rcases hnb with ⟨h, hw⟩ | ⟨h, hw⟩ | ⟨h, hw⟩ | ⟨h, hw⟩ <;>
    [have ha2 : a < 2 ^ 8 := lt_of_lt_of_le ha (Nat.pow_le_pow_right (by norm_num) hw);
     have ha2 : a < 2 ^ 16 := lt_of_lt_of_le ha (Nat.pow_le_pow_right (by norm_num) hw);
     have ha2 : a < 2 ^ 24 := lt_of_lt_of_le ha (Nat.pow_le_pow_right (by norm_num) hw);
     have ha2 : a < 2 ^ 32 := lt_of_lt_of_le ha (Nat.pow_le_pow_right (by norm_num) hw)] <;>
  · norm_num at ha2
    refine ⟨by simp [serializeGF, toLeBytes4, h], ?_⟩
    simp [serializeGF, deserializeGF, toLeBytes4, fromLeBytes4, h]
    omega

/-- C8 witness at `W = 13`, `a = 5000`. -/
theorem C8_witness :
    (1 : Nat) ≤ 13 ∧ (13 : Nat) ≤ 29 ∧ (5000 : Nat) < 2 ^ 13 ∧
    (serializeGF 13 5000).length = NUM_BYTES 13 ∧
    deserializeGF 13 (serializeGF 13 5000) = some 5000 :=
  ⟨by decide, by decide, by decide,
    (C8_serialize_roundtrip 13 5000 (by decide) (by decide) (by decide)).1,
    (C8_serialize_roundtrip 13 5000 (by decide) (by decide) (by decide)).2⟩

/-! ## C4: `compute_recon_coeffs` versus the `recon_coeffs` field -/

/-- C4 counterexample: for `d = 0`, `n = 2`, `pos = [2]` (so `np = 1 ≤ n`,
`pos` disjoint from the share positions), the static helper returns a 1-row
matrix while the field of `new` has `l + n - np = 2` rows; they differ. -/
theorem C4_counterexample :
    compute_recon_coeffs castF 0 2 [(2 : ZMod 11)] ≠
      (PackedSharing.new castF 0 2 [(2 : ZMod 11)]).recon_coeffs := by
  decide

/-- C4 (amended): `compute_recon_coeffs(d, n, pos)` interpolates onto
`all_pos[..l]` only, so it returns exactly the first `l = |pos|` rows of the
`recon_coeffs` field of `new` (shape `(l, np)` instead of
`(l + n - np, np)`), with the same columns and identical entries on those
rows. -/
theorem C4_amended_compute_recon_coeffs (F : Type) [Field F] [DecidableEq F]
    (gfrom : Nat → F) (d n : Nat) (pos : List F) (h : d + 1 ≤ n) :
    (compute_recon_coeffs gfrom d n pos).cols =
      (PackedSharing.new gfrom d n pos).recon_coeffs.cols ∧
    (compute_recon_coeffs gfrom d n pos).rows = pos.length ∧
    (compute_recon_coeffs gfrom d n pos).entries =
      (PackedSharing.new gfrom d n pos).recon_coeffs.entries.take pos.length := by
  refine ⟨rfl, by simp [compute_recon_coeffs, lagrange_coeffs], ?_⟩
  show ((pos ++ share_pos gfrom n).take pos.length).map _ =
    (((pos ++ share_pos gfrom n).take (pos.length + n - (d + 1))).map _).take pos.length
  rw [← List.map_take, List.take_take]
  congr 2
  omega

/-- C4 witness for the amended theorem at `d = 0`, `n = 2`, `pos = [2]`. -/
theorem C4_amended_witness :
    (0 : Nat) + 1 ≤ 2 ∧
    (compute_recon_coeffs castF 0 2 [(2 : ZMod 11)]).cols =
      (PackedSharing.new castF 0 2 [(2 : ZMod 11)]).recon_coeffs.cols ∧
    (compute_recon_coeffs castF 0 2 [(2 : ZMod 11)]).rows = 1 ∧
    (compute_recon_coeffs castF 0 2 [(2 : ZMod 11)]).entries =
      (PackedSharing.new castF 0 2 [(2 : ZMod 11)]).recon_coeffs.entries.take 1 :=
  ⟨by decide, (C4_amended_compute_recon_coeffs (ZMod 11) castF 0 2 [2] (by decide)).1,
    (C4_amended_compute_recon_coeffs (ZMod 11) castF 0 2 [2] (by decide)).2.1,
    (C4_amended_compute_recon_coeffs (ZMod 11) castF 0 2 [2] (by decide)).2.2⟩

/-! ## C7: unit rows of the Lagrange coefficient matrix -/

/-- C7: when `cpos` and `npos` each have no repetitions and `npos[i]` is the
`k`-th entry of `cpos`, row `i` of `lagrange_coeffs(cpos, npos)` is the `k`-th
unit vector. -/
theorem C7_lagrange_unit_row {F : Type} [Field F] [DecidableEq F]
    (cpos npos : List F) (h1 : cpos.Nodup) (_h2 : npos.Nodup)
    (i k : Nat) (hi : i < npos.length) (hk : k < cpos.length)
    (heq : npos[i] = cpos[k]) :
    (lagrange_coeffs cpos npos).entries[i]? =
      some ((List.range cpos.length).map fun j => if j = k then (1 : F) else 0) := by
  have hmem : npos[i] ∈ cpos := heq ▸ List.getElem_mem hk
  have hidx : cpos.indexOf npos[i] = k := by
    rw [heq]; exact List.indexOf_getElem h1 k hk
  simp [lagrange_coeffs, List.getElem?_eq_getElem hi, lagRow, hmem, hidx]

/-- C7 witness: spec scenario 6, `cpos = [0, 1, 2]`, `npos = [1]`, giving the
row `[0, 1, 0]`. -/
theorem C7_witness :
    ([(0 : ZMod 11), 1, 2] : List (ZMod 11)).Nodup ∧
    ([(1 : ZMod 11)] : List (ZMod 11)).Nodup ∧
    (lagrange_coeffs [(0 : ZMod 11), 1, 2] [(1 : ZMod 11)]).entries[0]? =
      some ((List.range 3).map fun j => if j = 1 then (1 : ZMod 11) else 0) :=
  ⟨by decide, by decide,
    C7_lagrange_unit_row [(0 : ZMod 11), 1, 2] [(1 : ZMod 11)] (by decide) (by decide)
      0 1 (by decide) (by decide) (by decide)⟩

/-! ## C2: the consistency check of `recon` -/

theorem reconCheck_spec {F : Type} [Field F] [DecidableEq F]
    (shares : List F) (tail : List F) :
    ∀ i0, i0 + tail.length ≤ shares.length →
      reconCheck shares tail i0 =
        some (decide (tail = (shares.drop i0).take tail.length)) := by
  induction tail with
  | nil => intro i0 h; simp [reconCheck]
  | cons v rest ih =>
    intro i0 h
    have hi0 : i0 < shares.length := by
      simp only [List.length_cons] at h; omega
    have hdrop : shares.drop i0 = shares[i0] :: shares.drop (i0 + 1) :=
      List.drop_eq_getElem_cons hi0
    have hrec := ih (i0 + 1) (by simp only [List.length_cons] at h; omega)
    rw [reconCheck, List.getElem?_eq_getElem hi0, hdrop]
    simp only [List.length_cons, List.take_succ_cons]
    by_cases hv : v = shares[i0]
    · subst hv
      rw [if_neg (by simp), hrec]
      congr 1
      rw [decide_eq_decide]
      simp
    · rw [if_pos hv]
      have hne : ¬(v :: rest = shares[i0] :: (shares.drop (i0 + 1)).take rest.length) := by
        intro hcon
        injection hcon with hcon1 hcon2
        exact hv hcon1
      simp [hne]

/-- C2: for a `PackedSharing` built by `new` with `np = d + 1 ≤ n` and a share
vector of length `n`, `recon` computes
`full = recon_coeffs ⬝ shares[n-np..]` (of length `l + n - np`), returns
`MaliciousBehavior` exactly when `full[l + i] ≠ shares[i]` for some
`i < n - np`, and otherwise returns `Ok(full[0..l])`. -/
theorem C2_recon_consistency {F : Type} [Field F] [DecidableEq F]
    (gfrom : Nat → F) (d n : Nat) (pos : List F) (shares : List F)
    (hnp : d + 1 ≤ n) (hlen : shares.length = n) :
    ∃ full,
      (PackedSharing.new gfrom d n pos).recon_coeffs.dotv
        (shares.drop (n - (d + 1))) = some full ∧
      full.length = pos.length + n - (d + 1) ∧
      ((∃ i < n - (d + 1), full[pos.length + i]? ≠ shares[i]?) ↔
        ¬(full.drop pos.length = shares.take (n - (d + 1)))) ∧
      (PackedSharing.new gfrom d n pos).recon shares =
        some (if full.drop pos.length = shares.take (n - (d + 1))
          then Except.ok (full.take pos.length)
          else Except.error ProtoErrorKind.MaliciousBehavior) := by
  set l := pos.length with hl
  set np := d + 1 with hnpdef
  have hcols : (PackedSharing.new gfrom d n pos).recon_coeffs.cols = np := by
    show ((pos ++ share_pos gfrom n).drop (l + n - np)).length = np
    simp [share_pos]
    omega
  have hvlen : (shares.drop (n - np)).length = np := by
    simp [hlen]; omega
  have hdot : (PackedSharing.new gfrom d n pos).recon_coeffs.dotv
      (shares.drop (n - np)) =
      some ((PackedSharing.new gfrom d n pos).recon_coeffs.entries.map
        (fun r => dotRow r (shares.drop (n - np)))) := by
    rw [Mat.dotv, if_pos (hvlen.trans hcols.symm)]
  set full := (PackedSharing.new gfrom d n pos).recon_coeffs.entries.map
    (fun r => dotRow r (shares.drop (n - np))) with hfull
  have hentries : (PackedSharing.new gfrom d n pos).recon_coeffs.entries =
      ((pos ++ share_pos gfrom n).take (l + n - np)).map
        (lagRow ((pos ++ share_pos gfrom n).drop (l + n - np))) := rfl
  have hfulllen : full.length = l + n - np := by
    rw [hfull, hentries]
    simp only [List.length_map, List.length_take, List.length_append,
      share_pos, List.length_range]
    omega
  have hdroplen : (full.drop l).length = n - np := by simp [hfulllen]; omega
  have hiff : (full.drop l = shares.take (n - np)) ↔
      ∀ i < n - np, full[l + i]? = shares[i]? := by
    constructor
    · intro he i hi
      have h1 : (full.drop l)[i]? = full[l + i]? := List.getElem?_drop full l i
      have h2 : (shares.take (n - np))[i]? = shares[i]? := List.getElem?_take_of_lt hi
      rw [← h1, ← h2, he]
    · intro hall
      apply List.ext_getElem?
      intro i
      by_cases hi : i < n - np
      · rw [List.getElem?_drop, List.getElem?_take_of_lt hi]
        exact hall i hi
      · rw [List.getElem?_eq_none (by omega), List.getElem?_eq_none (by simp [hlen]; omega)]
  refine ⟨full, hdot, hfulllen, ?_, ?_⟩
  · rw [hiff]
    push_neg
    constructor
    · rintro ⟨i, hi, hne⟩; exact ⟨i, hi, hne⟩
    · rintro ⟨i, hi, hne⟩; exact ⟨i, hi, hne⟩
  · have hn' : (PackedSharing.new gfrom d n pos).n = n := rfl
    have hnp' : (PackedSharing.new gfrom d n pos).np = np := rfl
    have hl' : (PackedSharing.new gfrom d n pos).l = l := rfl
    rw [PackedSharing.recon, if_neg (by rw [hn', hlen]; simp)]
    rw [hn', hnp', hl', hdot, Option.some_bind]
    have hcheck := reconCheck_spec shares (full.drop l) 0 (by rw [hdroplen]; omega)
    rw [List.drop_zero, hdroplen] at hcheck
    rw [hcheck]
    by_cases heq : full.drop l = shares.take (n - np)
    · rw [if_pos heq]
      simp [heq]
    · rw [if_neg heq]
      simp [heq]

/-- C2 witness: the honest sharing `[0, 8]` of secret `[5]` from the concrete
scenario reconstructs through the checked path. -/
theorem C2_witness :
    (1 : Nat) + 1 ≤ 2 ∧ ([(0 : ZMod 11), 8] : List (ZMod 11)).length = 2 ∧
    ∃ full,
      (PackedSharing.new castF 1 2 [(2 : ZMod 11)]).recon_coeffs.dotv
        (([(0 : ZMod 11), 8]).drop (2 - (1 + 1))) = some full ∧
      full.length = 1 + 2 - (1 + 1) ∧
      ((∃ i < 2 - (1 + 1), full[1 + i]? ≠ ([(0 : ZMod 11), 8] : List (ZMod 11))[i]?) ↔
        ¬(full.drop 1 = ([(0 : ZMod 11), 8] : List (ZMod 11)).take (2 - (1 + 1)))) ∧
      (PackedSharing.new castF 1 2 [(2 : ZMod 11)]).recon [(0 : ZMod 11), 8] =
        some (if full.drop 1 = ([(0 : ZMod 11), 8] : List (ZMod 11)).take (2 - (1 + 1))
          then Except.ok (full.take 1)
          else Except.error ProtoErrorKind.MaliciousBehavior) :=
  ⟨by decide, by decide,
    C2_recon_consistency castF 1 2 [(2 : ZMod 11)] [(0 : ZMod 11), 8]
      (by decide) (by decide)⟩

/-! ## C10: totality of `Circuit::eval` over input shapes -/

theorem writeWires_total (pairs : List (Nat × Bool)) :
    ∀ ws : List Bool, (∀ p ∈ pairs, p.1 < ws.length) →
      ∃ ws2, writeWires ws pairs = some ws2 ∧ ws2.length = ws.length := by
  induction pairs with
  | nil => intro ws _; exact ⟨ws, rfl, rfl⟩
  | cons p rest ih =>
    intro ws hb
    obtain ⟨w, b⟩ := p
    have hw : w < ws.length := hb (w, b) (List.mem_cons_self _ _)
    have hset : setWire ws w b = some (ws.set w b) := if_pos hw
    obtain ⟨ws2, h2, hlen2⟩ := ih (ws.set w b)
      (fun q hq => by rw [List.length_set]; exact hb q (List.mem_cons_of_mem _ hq))
    exact ⟨ws2, by rw [writeWires, hset, Option.some_bind, h2],
      by rw [hlen2, List.length_set]⟩

theorem writeInputs_total (gps : List (List Nat × List Bool)) :
    ∀ ws : List Bool, (∀ p ∈ gps, ∀ w ∈ p.1, w < ws.length) →
      ∃ ws2, writeInputs ws gps = some ws2 ∧ ws2.length = ws.length := by
  induction gps with
  | nil => intro ws _; exact ⟨ws, rfl, rfl⟩
  | cons p rest ih =>
    intro ws hb
    obtain ⟨g, inp⟩ := p
    obtain ⟨ws1, h1, hlen1⟩ := writeWires_total (g.zip inp) ws
      (fun q hq => hb (g, inp) (List.mem_cons_self _ _) q.1 (List.of_mem_zip hq).1)
    obtain ⟨ws2, h2, hlen2⟩ := ih ws1
      (fun q hq w hw => hlen1 ▸ hb q (List.mem_cons_of_mem _ hq) w hw)
    exact ⟨ws2, by rw [writeInputs, h1, Option.some_bind, h2], hlen2.trans hlen1⟩

theorem evalGates_total (gs : List Gate) :
    ∀ ws : List Bool, (∀ g ∈ gs, ∀ w ∈ gateWires g, w < ws.length) →
      ∃ ws2, evalGates ws gs = some ws2 ∧ ws2.length = ws.length := by
  induction gs with
  | nil => intro ws _; exact ⟨ws, rfl, rfl⟩
  | cons g rest ih =>
    intro ws hb
    have hg := hb g (List.mem_cons_self _ _)
    have hstep : ∃ ws1, evalGate ws g = some ws1 ∧ ws1.length = ws.length := by
      cases g with
      | Xor a b out =>
        have ha : a < ws.length := hg a (by simp [gateWires])
        have hbw : b < ws.length := hg b (by simp [gateWires])
        have ho : out < ws.length := hg out (by simp [gateWires])
        exact ⟨ws.set out (ws[a] != ws[b]), by
          simp [evalGate, List.getElem?_eq_getElem, ha, hbw, setWire, ho],
          List.length_set ws out _⟩
      | And a b out =>
        have ha : a < ws.length := hg a (by simp [gateWires])
        have hbw : b < ws.length := hg b (by simp [gateWires])
        have ho : out < ws.length := hg out (by simp [gateWires])
        exact ⟨ws.set out (ws[a] && ws[b]), by
          simp [evalGate, List.getElem?_eq_getElem, ha, hbw, setWire, ho],
          List.length_set ws out _⟩
      | Inv a out =>
        have ha : a < ws.length := hg a (by simp [gateWires])
        have ho : out < ws.length := hg out (by simp [gateWires])
        exact ⟨ws.set out (!ws[a]), by
          simp [evalGate, List.getElem?_eq_getElem, ha, setWire, ho],
          List.length_set ws out _⟩
    obtain ⟨ws1, h1, hlen1⟩ := hstep
    obtain ⟨ws2, h2, hlen2⟩ := ih ws1
      (fun q hq w hw => hlen1 ▸ hb q (List.mem_cons_of_mem _ hq) w hw)
    exact ⟨ws2, by rw [evalGates, h1, Option.some_bind, h2], hlen2.trans hlen1⟩

theorem readGroup_total (g : List Nat) (ws : List Bool)
    (hb : ∀ w ∈ g, w < ws.length) : ∃ out, readGroup ws g = some out := by
  induction g with
  | nil => exact ⟨[], rfl⟩
  | cons w rest ih =>
    obtain ⟨out, hout⟩ := ih (fun x hx => hb x (List.mem_cons_of_mem _ hx))
    have hw : w < ws.length := hb w (List.mem_cons_self _ _)
    exact ⟨ws[w] :: out, by
      simp only [readGroup, List.mapM_cons, List.getElem?_eq_getElem hw]
      simp only [readGroup] at hout
      rw [hout]
      rfl⟩

theorem readGroups_total (outs : List (List Nat)) (ws : List Bool)
    (hb : ∀ g ∈ outs, ∀ w ∈ g, w < ws.length) :
    ∃ res, outs.mapM (readGroup ws) = some res := by
  induction outs with
  | nil => exact ⟨[], rfl⟩
  | cons g rest ih =>
    obtain ⟨out, hout⟩ := readGroup_total g ws (hb g (List.mem_cons_self _ _))
    obtain ⟨res, hres⟩ := ih (fun q hq => hb q (List.mem_cons_of_mem _ hq))
    exact ⟨out :: res, by rw [List.mapM_cons, hout, hres]; rfl⟩

theorem zip_take_right (g : List Nat) :
    ∀ inp : List Bool, g.zip (inp.take g.length) = g.zip inp := by
  induction g with
  | nil => intro inp; rfl
  | cons w rest ih =>
    intro inp
    cases inp with
    | nil => rfl
    | cons b bs => simp [List.zip_cons_cons, ih]

theorem writeInputs_trim (gs : List (List Nat)) :
    ∀ (ins : List (List Bool)) (ws : List Bool),
      writeInputs ws (gs.zip ((gs.zip ins).map fun p => p.2.take p.1.length)) =
        writeInputs ws (gs.zip ins) := by
  induction gs with
  | nil => intro ins ws; rfl
  | cons g rest ih =>
    intro ins ws
    cases ins with
    | nil => rfl
    | cons inp rins =>
      simp only [List.zip_cons_cons, List.map_cons, writeInputs, zip_take_right]
      congr 1
      funext a
      exact ih rins a

/-- C10: for every circuit satisfying the data-model wire invariant and every
list of boolean input groups of arbitrary shapes, `eval` never fails: it
returns the same outputs as on the trimmed inputs (each provided group
truncated to its declared wire group's length, surplus groups dropped), so
surplus bits and groups are ignored, bits are consumed pairwise up to the
shorter of provided and declared group, and unwritten wires keep the initial
`false`. -/
theorem C10_eval_total (c : Circuit) (hwf : c.WF) (inputs : List (List Bool)) :
    ∃ out, c.eval inputs = some out ∧ c.eval (trimInputs c inputs) = some out := by
  obtain ⟨hg, hi, ho⟩ := hwf
  have hlenrep : (List.replicate c.num_wires false).length = c.num_wires :=
    List.length_replicate _ _
  obtain ⟨ws1, h1, hlen1⟩ := writeInputs_total (c.inputs.zip inputs)
    (List.replicate c.num_wires false)
    (fun p hp w hw => by
      rw [hlenrep]
      exact hi p.1 (List.of_mem_zip hp).1 w hw)
  obtain ⟨ws2, h2, hlen2⟩ := evalGates_total c.gates ws1
    (fun g hgm w hw => by rw [hlen1, hlenrep]; exact hg g hgm w hw)
  obtain ⟨res, hres⟩ := readGroups_total c.outputs ws2
    (fun g hgm w hw => by rw [hlen2, hlen1, hlenrep]; exact ho g hgm w hw)
  refine ⟨res, ?_, ?_⟩
  · rw [Circuit.eval, h1, Option.some_bind, h2, Option.some_bind, hres]
  · rw [Circuit.eval, trimInputs, writeInputs_trim, h1, Option.some_bind, h2,
      Option.some_bind, hres]

/-- C10 witness: the two-bit XOR circuit of spec scenario 4, evaluated on a
ragged input (one surplus bit and one surplus group). -/
theorem C10_witness :
    (Circuit.mk [Gate.Xor 0 1 2] [[0, 1]] [[2]] 3).WF ∧
    ∃ out,
      (Circuit.mk [Gate.Xor 0 1 2] [[0, 1]] [[2]] 3).eval
        [[true, false, true], [false]] = some out ∧
      (Circuit.mk [Gate.Xor 0 1 2] [[0, 1]] [[2]] 3).eval
        (trimInputs (Circuit.mk [Gate.Xor 0 1 2] [[0, 1]] [[2]] 3)
          [[true, false, true], [false]]) = some out :=
  ⟨by decide,
    C10_eval_total (Circuit.mk [Gate.Xor 0 1 2] [[0, 1]] [[2]] 3) (by decide)
      [[true, false, true], [false]]⟩

/-! ## The interpolation property of `lagrange_coeffs`

`lagrange_coeffs cpos npos` applied to the evaluations of a polynomial of
degree below `|cpos|` at `cpos` yields its evaluations at `npos`; the rows are
shown to coincide with evaluations of the Mathlib Lagrange basis at the
target points. -/

theorem nodup_injOn_getD (l : List F) (h : l.Nodup) :
    Set.InjOn (fun j => l.getD j 0) (Finset.range l.length) := by
  intro a ha b hb hab
  simp only [Finset.coe_range, Set.mem_Iio] at ha hb
  have hab2 : l.getD a 0 = l.getD b 0 := hab
  rw [List.getD_eq_getElem l 0 ha, List.getD_eq_getElem l 0 hb] at hab2
  exact (List.Nodup.getElem_inj_iff h).mp hab2

theorem map_prod_eq_finset_prod (f : F → F) (l : List F) :
    (l.map f).prod = ∏ j ∈ Finset.range l.length, f (l.getD j 0) := by
  induction l with
  | nil => simp
  | cons a t ih =>
    rw [List.map_cons, List.prod_cons, ih, List.length_cons, Finset.prod_range_succ']
    simp only [List.getD_cons_succ, List.getD_cons_zero]
    exact (mul_comm _ _).symm

theorem dotRow_eq_sum (row : List F) :
    ∀ v : List F, row.length = v.length →
      dotRow row v = ∑ j ∈ Finset.range row.length, row.getD j 0 * v.getD j 0 := by
  induction row with
  | nil => intro v _; simp [dotRow]
  | cons a t ih =>
    intro v h
    cases v with
    | nil => simp at h
    | cons b vs =>
      have ht := ih vs (by simpa using h)
      simp only [dotRow, List.zipWith_cons_cons, List.sum_cons, List.length_cons]
      rw [Finset.sum_range_succ']
      simp only [List.getD_cons_succ, List.getD_cons_zero]
      rw [← dotRow, ← ht]
      exact add_comm _ _

theorem lagDenom_eq (cpos : List F) (h : cpos.Nodup) (j : Nat) (hj : j < cpos.length) :
    lagDenom cpos (cpos.getD j 0) =
      ∏ i ∈ (Finset.range cpos.length).erase j, (cpos.getD j 0 - cpos.getD i 0) := by
  rw [lagDenom, map_prod_eq_finset_prod]
  rw [← Finset.mul_prod_erase (Finset.range cpos.length)
    (fun i => if cpos.getD j 0 = cpos.getD i 0 then 1 else cpos.getD j 0 - cpos.getD i 0)
    (Finset.mem_range.mpr hj)]
  rw [if_pos rfl, one_mul]
  refine Finset.prod_congr rfl fun i hi => ?_
  obtain ⟨hij, hirange⟩ := Finset.mem_erase.mp hi
  rw [if_neg]
  intro hcon
  exact hij ((nodup_injOn_getD cpos h) (by simpa using hirange)
    (by simpa using hj) hcon.symm)

theorem eval_basisDivisor (x y t : F) :
    Polynomial.eval t (Lagrange.basisDivisor x y) = (x - y)⁻¹ * (t - y) := by
  simp [Lagrange.basisDivisor]

theorem lagRow_length (cpos : List F) (v : F) :
    (lagRow cpos v).length = cpos.length := by
  rw [lagRow]
  split <;> simp

theorem lagRow_getD (cpos : List F) (h : cpos.Nodup) (v : F) (j : Nat)
    (hj : j < cpos.length) :
    (lagRow cpos v).getD j 0 =
      Polynomial.eval v
        (Lagrange.basis (Finset.range cpos.length) (fun i => cpos.getD i 0) j) := by
  by_cases hmem : v ∈ cpos
  · obtain ⟨k, hk, hvk⟩ := List.getElem_of_mem hmem
    have hidx : cpos.indexOf v = k := by
      rw [← hvk]
      exact List.indexOf_getElem h k hk
    rw [lagRow, if_pos hmem]
    have hjlen : j < ((List.range cpos.length).map
        (fun i => if i = cpos.indexOf v then (1 : F) else 0)).length := by simpa using hj
    rw [List.getD_eq_getElem _ 0 hjlen, List.getElem_map, List.getElem_range, hidx, ← hvk]
    have hcast : (cpos[k] : F) = (fun i => cpos.getD i 0) k := by
      simp only
      rw [List.getD_eq_getElem cpos 0 hk]
    by_cases hjk : j = k
    · rw [if_pos hjk, hjk, hcast]
      exact (Lagrange.eval_basis_self (nodup_injOn_getD cpos h)
        (Finset.mem_range.mpr hk)).symm
    · rw [if_neg hjk, hcast]
      exact (@Lagrange.eval_basis_of_ne F _ Nat _ (Finset.range cpos.length)
        (fun i => cpos.getD i 0) j k hjk (Finset.mem_range.mpr hk)).symm
  · rw [lagRow, if_neg hmem]
    have hjlen : j < (cpos.map (fun x =>
        ((cpos.map (fun y => v - y)).prod) / ((v - x) * lagDenom cpos x))).length := by
      simpa using hj
    rw [List.getD_eq_getElem _ 0 hjlen, List.getElem_map]
    have hget : cpos[j] = cpos.getD j 0 := (List.getD_eq_getElem cpos 0 hj).symm
    rw [hget]
    have hvne : ∀ i ∈ Finset.range cpos.length, v - cpos.getD i 0 ≠ 0 := by
      intro i hi
      rw [sub_ne_zero]
      intro hcon
      apply hmem
      rw [hcon, List.getD_eq_getElem cpos 0 (Finset.mem_range.mp hi)]
      exact List.getElem_mem _
    have hnum : (cpos.map (fun y => v - y)).prod =
        ∏ i ∈ Finset.range cpos.length, (v - cpos.getD i 0) :=
      map_prod_eq_finset_prod (fun y => v - y) cpos
    have hsplit : ∏ i ∈ Finset.range cpos.length, (v - cpos.getD i 0) =
        (v - cpos.getD j 0) *
          ∏ i ∈ (Finset.range cpos.length).erase j, (v - cpos.getD i 0) :=
      (Finset.mul_prod_erase _ _ (Finset.mem_range.mpr hj)).symm
    rw [hnum, hsplit, lagDenom_eq cpos h j hj,
      mul_div_mul_left _ _ (hvne j (Finset.mem_range.mpr hj))]
    rw [Lagrange.basis, Polynomial.eval_prod,
      div_eq_mul_inv, ← Finset.prod_inv_distrib, ← Finset.prod_mul_distrib]
    refine Finset.prod_congr rfl fun i hi => ?_
    simp only [eval_basisDivisor]
    ring

theorem dotRow_lagRow (cpos : List F) (h : cpos.Nodup) (v : F) (p : Polynomial F)
    (hdeg : p.degree < cpos.length) :
    dotRow (lagRow cpos v) (cpos.map (fun x => Polynomial.eval x p)) =
      Polynomial.eval v p := by
  have hrowlen : (lagRow cpos v).length = cpos.length := lagRow_length cpos v
  rw [dotRow_eq_sum _ _ (by simp [hrowlen]), hrowlen]
  have hcongr : ∀ j ∈ Finset.range cpos.length,
      (lagRow cpos v).getD j 0 * (cpos.map fun x => Polynomial.eval x p).getD j 0 =
        Polynomial.eval (cpos.getD j 0) p *
          Polynomial.eval v
            (Lagrange.basis (Finset.range cpos.length) (fun i => cpos.getD i 0) j) := by
    intro j hj
    have hj' : j < cpos.length := Finset.mem_range.mp hj
    have hjm : j < (cpos.map fun x => Polynomial.eval x p).length := by simpa using hj'
    have hmap : (cpos.map fun x => Polynomial.eval x p).getD j 0 =
        Polynomial.eval (cpos.getD j 0) p := by
      rw [List.getD_eq_getElem _ 0 hjm, List.getElem_map,
        List.getD_eq_getElem cpos 0 hj']
    rw [lagRow_getD cpos h v j hj', hmap]
    ring
  rw [Finset.sum_congr rfl hcongr]
  have hinj := nodup_injOn_getD cpos h
  have hp := Lagrange.eq_interpolate hinj
    (by simpa using hdeg :
      p.degree < (Finset.range cpos.length).card)
  conv_rhs => rw [hp]
  rw [Lagrange.interpolate_apply, Polynomial.eval_finset_sum]
  exact Finset.sum_congr rfl fun j hj => by
    simp only [Polynomial.eval_mul, Polynomial.eval_C]

/-- The interpolation property of the coefficient matrix: applied to the
evaluations at `cpos` of any polynomial of degree below `|cpos|`, it yields
the evaluations at `npos`. -/
theorem lagrange_coeffs_dotv (cpos npos : List F) (h : cpos.Nodup)
    (p : Polynomial F) (hdeg : p.degree < cpos.length) :
    (lagrange_coeffs cpos npos).dotv (cpos.map (fun x => Polynomial.eval x p)) =
      some (npos.map (fun x => Polynomial.eval x p)) := by
  rw [lagrange_coeffs, Mat.dotv, if_pos (by simp)]
  simp only [List.map_map]
  congr 1
  refine List.map_congr_left fun w _ => ?_
  exact dotRow_lagRow cpos h w p hdeg

/-! ## C5: shape and mapping of `share_coeffs` -/

/-- C5 counterexample: for `d = 1`, `n = 3`, `pos = [3]` (so `np = 2 ≤ n`,
`pos` disjoint from share positions), `share_coeffs` has
`l + n - np = 2` rows, not `n = 3` as the claim states. -/
theorem C5_counterexample :
    (PackedSharing.new castF 1 3 [(3 : ZMod 11)]).share_coeffs.rows = 2 ∧
    (PackedSharing.new castF 1 3 [(3 : ZMod 11)]).share_coeffs.entries.length = 2 ∧
    (2 : Nat) ≠ 3 := by
  decide

/-- C5 (amended): `share_coeffs` has shape `(l + n - np, np)` (not
`(n, np)`): it maps the `np` defining evaluations (the `l` secrets followed by
`np - l` random shares, i.e. the evaluations of the sharing polynomial at the
first `np` positions of `all_pos`) to the remaining `l + n - np` shares (its
evaluations at the last `l + n - np` share positions); the first `np - l`
shares are the random defining evaluations themselves, not produced by the
matrix. -/
theorem C5_amended_share_coeffs (F : Type) [Field F] [DecidableEq F]
    (gfrom : Nat → F) (d n : Nat) (pos : List F)
    (hnp : d + 1 ≤ n) (hl : pos.length ≤ d + 1)
    (hnodup : (pos ++ share_pos gfrom n).Nodup) :
    (PackedSharing.new gfrom d n pos).share_coeffs.rows =
      pos.length + n - (d + 1) ∧
    (PackedSharing.new gfrom d n pos).share_coeffs.cols = d + 1 ∧
    (PackedSharing.new gfrom d n pos).share_coeffs.WF ∧
    ∀ p : Polynomial F, p.degree < ((d + 1 : Nat) : WithBot Nat) →
      (PackedSharing.new gfrom d n pos).share_coeffs.dotv
          (((pos ++ share_pos gfrom n).take (d + 1)).map
            (fun x => Polynomial.eval x p)) =
        some (((pos ++ share_pos gfrom n).drop (d + 1)).map
          (fun x => Polynomial.eval x p)) := by
  have hclen : ((pos ++ share_pos gfrom n).take (d + 1)).length = d + 1 := by
    simp only [List.length_take, List.length_append, share_pos,
      List.length_map, List.length_range]
    omega
  refine ⟨?_, hclen, ⟨?_, ?_⟩, ?_⟩
  · show ((pos ++ share_pos gfrom n).drop (d + 1)).length = _
    simp only [List.length_drop, List.length_append, share_pos,
      List.length_map, List.length_range]
  · show (((pos ++ share_pos gfrom n).drop (d + 1)).map
        (lagRow ((pos ++ share_pos gfrom n).take (d + 1)))).length =
      ((pos ++ share_pos gfrom n).drop (d + 1)).length
    simp
  · intro r hr
    have hr2 : r ∈ ((pos ++ share_pos gfrom n).drop (d + 1)).map
        (lagRow ((pos ++ share_pos gfrom n).take (d + 1))) := hr
    obtain ⟨w, _, hw⟩ := List.mem_map.mp hr2
    rw [← hw]
    show (lagRow _ w).length = ((pos ++ share_pos gfrom n).take (d + 1)).length
    exact lagRow_length _ w
  · intro p hdeg
    have hnd : ((pos ++ share_pos gfrom n).take (d + 1)).Nodup :=
      (List.take_sublist _ _).nodup hnodup
    have hdeg2 : p.degree <
        (((pos ++ share_pos gfrom n).take (d + 1)).length : WithBot Nat) := by
      rw [hclen]; exact hdeg
    exact lagrange_coeffs_dotv _ _ hnd p hdeg2

/-- C5 witness for the amended theorem at `d = 1`, `n = 2`, `pos = [2]`. -/
theorem C5_amended_witness :
    (1 : Nat) + 1 ≤ 2 ∧ ([(2 : ZMod 11)] : List (ZMod 11)).length ≤ 1 + 1 ∧
    (([(2 : ZMod 11)] : List (ZMod 11)) ++ share_pos castF 2).Nodup ∧
    ((PackedSharing.new castF 1 2 [(2 : ZMod 11)]).share_coeffs.rows =
        1 + 2 - (1 + 1) ∧
      (PackedSharing.new castF 1 2 [(2 : ZMod 11)]).share_coeffs.cols = 1 + 1 ∧
      (PackedSharing.new castF 1 2 [(2 : ZMod 11)]).share_coeffs.WF ∧
      ∀ p : Polynomial (ZMod 11), p.degree < ((1 + 1 : Nat) : WithBot Nat) →
        (PackedSharing.new castF 1 2 [(2 : ZMod 11)]).share_coeffs.dotv
            ((([(2 : ZMod 11)] ++ share_pos castF 2).take (1 + 1)).map
              (fun x => Polynomial.eval x p)) =
          some ((([(2 : ZMod 11)] ++ share_pos castF 2).drop (1 + 1)).map
            (fun x => Polynomial.eval x p))) :=
  ⟨by decide, by decide, by decide,
    C5_amended_share_coeffs (ZMod 11) castF 1 2 [(2 : ZMod 11)]
      (by decide) (by decide) (by decide)⟩

/-! ## C1: share followed by semi-honest reconstruction -/

/-- C1 counterexample: `d = 0`, `n = 2`, `pos = [2, 3]` satisfies every
precondition stated by the claim (`np = 1 ≤ n`, `pos` distinct with entries
at least `n`), the secrets vector has length `l = |pos| = 2`, yet `share`
aborts (`l > np` makes the defining vector longer than the matrix columns,
an `ndarray` dot shape panic), so no reconstruction can return the
secrets. -/
theorem C1_counterexample :
    (PackedSharing.new castF 0 2 [(2 : ZMod 11), 3]).share [(1 : ZMod 11), 2]
      (fun i => (i : ZMod 11)) = none ∧
    ¬ ∃ sh, (PackedSharing.new castF 0 2 [(2 : ZMod 11), 3]).share
        [(1 : ZMod 11), 2] (fun i => (i : ZMod 11)) = some sh ∧
      (PackedSharing.new castF 0 2 [(2 : ZMod 11), 3]).semihon_recon sh =
        some [(1 : ZMod 11), 2] := by
  have h : (PackedSharing.new castF 0 2 [(2 : ZMod 11), 3]).share
      [(1 : ZMod 11), 2] (fun i => (i : ZMod 11)) = none := by decide
  refine ⟨h, ?_⟩
  rintro ⟨sh, hsh, _⟩
  rw [h] at hsh
  exact Option.noConfusion hsh

theorem ext_getD (l1 l2 : List F) (hlen : l1.length = l2.length)
    (h : ∀ i < l1.length, l1.getD i 0 = l2.getD i 0) : l1 = l2 := by
  apply List.ext_getElem hlen
  intro i h1 h2
  have h3 := h i h1
  rwa [List.getD_eq_getElem l1 0 h1, List.getD_eq_getElem l2 0 h2] at h3

theorem getD_take_eq (l : List F) (k j : Nat) (hj : j < k) (hjl : j < l.length) :
    (l.take k).getD j 0 = l.getD j 0 := by
  have h1 : j < (l.take k).length := by
    simp only [List.length_take]
    omega
  rw [List.getD_eq_getElem _ 0 h1, List.getD_eq_getElem l 0 hjl, List.getElem_take]

theorem getD_range_map (g : Nat → F) (k i : Nat) (hi : i < k) :
    ((List.range k).map g).getD i 0 = g i := by
  have h1 : i < ((List.range k).map g).length := by simpa using hi
  rw [List.getD_eq_getElem _ 0 h1, List.getElem_map, List.getElem_range]

theorem getD_map_lt (g : F → F) (l : List F) (i : Nat) (hi : i < l.length) :
    (l.map g).getD i 0 = g (l.getD i 0) := by
  have h1 : i < (l.map g).length := by simpa using hi
  rw [List.getD_eq_getElem _ 0 h1, List.getElem_map, List.getD_eq_getElem l 0 hi]

/-- C1 (amended): for `np = d + 1 ≤ n`, `l = |pos| ≤ np`, `all_pos` without
repetition (`pos` distinct and disjoint from the share positions) and
`|secrets| = l`: for every RNG stream, `share` succeeds with `n` shares and
`semihon_recon` of the fresh sharing returns the original secrets. -/
theorem C1_amended_share_semihon_recon (F : Type) [Field F] [DecidableEq F]
    (gfrom : Nat → F) (d n : Nat) (pos secrets : List F) (rng : Nat → F)
    (hnp : d + 1 ≤ n) (hl : pos.length ≤ d + 1)
    (hnodup : (pos ++ share_pos gfrom n).Nodup)
    (hsec : secrets.length = pos.length) :
    ∃ sh, (PackedSharing.new gfrom d n pos).share secrets rng = some sh ∧
      sh.length = n ∧
      (PackedSharing.new gfrom d n pos).semihon_recon sh = some secrets := by
  have hshplen : (share_pos gfrom n).length = n := by
    simp [share_pos]
  have haplen : (pos ++ share_pos gfrom n).length = pos.length + n := by
    simp [hshplen]
  have hcols : (PackedSharing.new gfrom d n pos).share_coeffs.cols = d + 1 := by
    show ((pos ++ share_pos gfrom n).take (d + 1)).length = d + 1
    simp only [List.length_take, haplen]
    omega
  have hnodeslen : ((pos ++ share_pos gfrom n).take (d + 1)).length = d + 1 := hcols
  have hnodesnodup : ((pos ++ share_pos gfrom n).take (d + 1)).Nodup :=
    (List.take_sublist _ _).nodup hnodup
  have hinj0 := nodup_injOn_getD _ hnodesnodup
  rw [hnodeslen] at hinj0
  obtain ⟨P, hPdeg, hPeval⟩ :
      ∃ P : Polynomial F, P.degree < ((d + 1 : Nat) : WithBot Nat) ∧
        ∀ i < d + 1,
          Polynomial.eval (((pos ++ share_pos gfrom n).take (d + 1)).getD i 0) P =
            (secrets ++ (List.range (d + 1 - pos.length)).map rng).getD i 0 := by
    refine ⟨Lagrange.interpolate (Finset.range (d + 1))
      (fun i => ((pos ++ share_pos gfrom n).take (d + 1)).getD i 0)
      (fun i => (secrets ++ (List.range (d + 1 - pos.length)).map rng).getD i 0),
      ?_, ?_⟩
    · have hlt := Lagrange.degree_interpolate_lt
        (fun i => (secrets ++ (List.range (d + 1 - pos.length)).map rng).getD i 0)
        hinj0
      simpa using hlt
    · intro i hi
      exact Lagrange.eval_interpolate_at_node
        (fun i => (secrets ++ (List.range (d + 1 - pos.length)).map rng).getD i 0)
        hinj0 (Finset.mem_range.mpr hi)
  have hpoints : secrets ++ (List.range (d + 1 - pos.length)).map rng =
      ((pos ++ share_pos gfrom n).take (d + 1)).map (fun x => Polynomial.eval x P) := by
    apply ext_getD
    · simp only [List.length_append, List.length_map, List.length_range,
        hnodeslen, hsec]
      omega
    · intro i hi
      have hi2 : i < d + 1 := by
        simp only [List.length_append, List.length_map, List.length_range, hsec] at hi
        omega
      rw [getD_map_lt _ _ i (by rw [hnodeslen]; exact hi2)]
      exact (hPeval i hi2).symm
  have hshare : (PackedSharing.new gfrom d n pos).share secrets rng =
      ((PackedSharing.new gfrom d n pos).share_coeffs.dotv
        ((secrets ++ (List.range pos.length).map
            (fun i => rng ((PackedSharing.new gfrom d n pos).share_coeffs.cols
              - pos.length + i))).take pos.length ++
          (List.range ((PackedSharing.new gfrom d n pos).share_coeffs.cols
            - pos.length)).map rng)).map
        (fun tail =>
          (List.range ((PackedSharing.new gfrom d n pos).share_coeffs.cols
            - pos.length)).map rng ++ tail) := rfl
  have hsc : (PackedSharing.new gfrom d n pos).share_coeffs =
      lagrange_coeffs ((pos ++ share_pos gfrom n).take (d + 1))
        ((pos ++ share_pos gfrom n).drop (d + 1)) := rfl
  have hdeg2 : P.degree <
      ((((pos ++ share_pos gfrom n).take (d + 1)).length : Nat) : WithBot Nat) := by
    rw [hnodeslen]; exact hPdeg
  rw [hshare, hcols, List.take_left' hsec, hpoints, hsc,
    lagrange_coeffs_dotv _ _ hnodesnodup P hdeg2]
  have hdropap : (pos ++ share_pos gfrom n).drop (d + 1) =
      (share_pos gfrom n).drop (d + 1 - pos.length) := by
    have h1 : d + 1 = pos.length + (d + 1 - pos.length) := by omega
    rw [h1, List.drop_append]
    congr 1
    omega
  have hshares0 : (List.range (d + 1 - pos.length)).map rng =
      ((share_pos gfrom n).take (d + 1 - pos.length)).map
        (fun x => Polynomial.eval x P) := by
    apply ext_getD
    · simp only [List.length_map, List.length_range, List.length_take, hshplen]
      omega
    · intro i hi
      have hi2 : i < d + 1 - pos.length := by simpa using hi
      rw [getD_range_map rng _ i hi2]
      rw [getD_map_lt _ _ i (by simp only [List.length_take, hshplen]; omega)]
      rw [getD_take_eq _ _ i hi2 (by rw [hshplen]; omega)]
      have he := hPeval (pos.length + i) (by omega)
      rw [getD_take_eq _ _ _ (by omega) (by rw [haplen]; omega)] at he
      rw [List.getD_append_right pos (share_pos gfrom n) 0 (pos.length + i)
        (by omega)] at he
      rw [Nat.add_sub_cancel_left] at he
      rw [List.getD_append_right secrets ((List.range (d + 1 - pos.length)).map rng) 0
        (pos.length + i) (by omega)] at he
      rw [hsec, Nat.add_sub_cancel_left] at he
      rw [getD_range_map rng _ i hi2] at he
      exact he.symm
  refine ⟨(List.range (d + 1 - pos.length)).map rng ++
      ((pos ++ share_pos gfrom n).drop (d + 1)).map (fun x => Polynomial.eval x P),
    rfl, ?_, ?_⟩
  · simp only [List.length_append, List.length_map, List.length_range,
      List.length_drop, haplen]
    omega
  · have hshfull : (List.range (d + 1 - pos.length)).map rng ++
        ((pos ++ share_pos gfrom n).drop (d + 1)).map (fun x => Polynomial.eval x P) =
        (share_pos gfrom n).map (fun x => Polynomial.eval x P) := by
      rw [hshares0, hdropap, ← List.map_append, List.take_append_drop]
    rw [hshfull]
    have hsemi : (PackedSharing.new gfrom d n pos).semihon_recon
        ((share_pos gfrom n).map (fun x => Polynomial.eval x P)) =
        ((PackedSharing.new gfrom d n pos).recon_coeffs.takeRows pos.length).dotv
          (((share_pos gfrom n).map (fun x => Polynomial.eval x P)).drop
            (n - (d + 1))) := rfl
    rw [hsemi]
    have hdropap2 : (pos ++ share_pos gfrom n).drop (pos.length + n - (d + 1)) =
        (share_pos gfrom n).drop (n - (d + 1)) := by
      have h1 : pos.length + n - (d + 1) = pos.length + (n - (d + 1)) := by omega
      rw [h1, List.drop_append]
    have hdrop2 : ((share_pos gfrom n).map (fun x => Polynomial.eval x P)).drop
        (n - (d + 1)) =
        ((pos ++ share_pos gfrom n).drop (pos.length + n - (d + 1))).map
          (fun x => Polynomial.eval x P) := by
      rw [hdropap2, List.map_drop]
    rw [hdrop2, Mat.dotv, if_pos (by simp only [List.length_map, Mat.takeRows]; rfl)]
    have hent : (PackedSharing.new gfrom d n pos).recon_coeffs.entries.take
        pos.length =
        pos.map (lagRow ((pos ++ share_pos gfrom n).drop
          (pos.length + n - (d + 1)))) := by
      show (((pos ++ share_pos gfrom n).take (pos.length + n - (d + 1))).map
        (lagRow ((pos ++ share_pos gfrom n).drop
          (pos.length + n - (d + 1))))).take pos.length = _
      have hmin : min pos.length (pos.length + n - (d + 1)) = pos.length := by omega
      rw [← List.map_take, List.take_take, hmin, List.take_left' rfl]
    show some (((PackedSharing.new gfrom d n pos).recon_coeffs.entries.take
      pos.length).map _) = _
    rw [hent, List.map_map]
    have hnd2 : ((pos ++ share_pos gfrom n).drop (pos.length + n - (d + 1))).Nodup :=
      (List.drop_sublist _ _).nodup hnodup
    have hlen2 : ((pos ++ share_pos gfrom n).drop
        (pos.length + n - (d + 1))).length = d + 1 := by
      simp only [List.length_drop, haplen]
      omega
    have hdeg3 : P.degree <
        (((pos ++ share_pos gfrom n).drop (pos.length + n - (d + 1))).length :
          WithBot Nat) := by
      rw [hlen2]; exact hPdeg
    have hrow : ∀ w ∈ pos,
        ((fun r => dotRow r (((pos ++ share_pos gfrom n).drop
            (pos.length + n - (d + 1))).map (fun x => Polynomial.eval x P))) ∘
          lagRow ((pos ++ share_pos gfrom n).drop (pos.length + n - (d + 1)))) w =
          Polynomial.eval w P :=
      fun w _ => dotRow_lagRow _ hnd2 w P hdeg3
    rw [List.map_congr_left hrow]
    have hfinal : pos.map (fun w => Polynomial.eval w P) = secrets := by
      apply ext_getD
      · simp [hsec]
      · intro j hj
        have hj2 : j < pos.length := by simpa using hj
        rw [getD_map_lt _ _ j hj2]
        have he := hPeval j (by omega)
        rw [getD_take_eq _ _ j (by omega) (by rw [haplen]; omega)] at he
        rw [List.getD_append pos (share_pos gfrom n) 0 j hj2] at he
        rw [List.getD_append secrets ((List.range (d + 1 - pos.length)).map rng) 0 j
          (by omega)] at he
        exact he
    rw [hfinal]

/-- C1 witness for the amended theorem: `d = 1`, `n = 2`, `pos = [2]`,
`secrets = [5]` over the concrete field with the RNG stream `i ↦ i`. -/
theorem C1_amended_witness :
    (1 : Nat) + 1 ≤ 2 ∧ ([(2 : ZMod 11)] : List (ZMod 11)).length ≤ 1 + 1 ∧
    (([(2 : ZMod 11)] : List (ZMod 11)) ++ share_pos castF 2).Nodup ∧
    ([(5 : ZMod 11)] : List (ZMod 11)).length = 1 ∧
    ∃ sh, (PackedSharing.new castF 1 2 [(2 : ZMod 11)]).share [(5 : ZMod 11)]
        (fun i => (i : ZMod 11)) = some sh ∧
      sh.length = 2 ∧
      (PackedSharing.new castF 1 2 [(2 : ZMod 11)]).semihon_recon sh =
        some [(5 : ZMod 11)] :=
  ⟨by decide, by decide, by decide, by decide,
    C1_amended_share_semihon_recon (ZMod 11) castF 1 2 [(2 : ZMod 11)]
      [(5 : ZMod 11)] (fun i => (i : ZMod 11))
      (by decide) (by decide) (by decide) (by decide)⟩

end PSSV
